import Mathlib

/-!
Shallow embedding of `src/malloc.c` from dlundquist/faultymalloc: a
fault-injection harness that interposes on the allocation primitives
(`malloc`, `calloc`, `realloc`, `strdup`, `strndup`), forces each distinct
call site to fail exactly once over a campaign of repeated runs of a target
program, and stops when a convergence check (`tests_complete`) fires.

Pointers and opaque values (caller return addresses, allocator results,
string arguments) are modelled as `Nat`, with `0` standing for the C `NULL`.
Machine integers: `status` is an `int` holding the two flag bits
`tested_failure = 0x1` and `tested_success = 0x2`; the rolling `size_t`
checksum in `tests_complete` is taken modulo `2 ^ 64`.
-/

namespace FaultyMalloc

/-- One entry of the shared table: `struct Record { void *caller; volatile int status; }`. -/
structure Record where
  caller : Nat
  status : Nat
deriving DecidableEq

/-- The shared table: `struct Data { volatile size_t record_count; size_t max_records;
struct Record records[]; }`.  `record_count` is represented implicitly as
`records.length`. -/
structure Data where
  max_records : Nat
  records : List Record
deriving DecidableEq

/-- `static const int tested_failure = 0x1;` -/
def tested_failure : Nat := 1

/-- `static const int tested_success = 0x2;` -/
def tested_success : Nat := 2

/-- The table as set up by `init()`: `data->record_count = 0; data->max_records = 1024;`
over a zeroed mapping. -/
def init_data : Data := ⟨1024, []⟩

/-- The scanning loop of `lookup_caller`: index of the first record whose
`caller` field equals the given caller, if any. -/
def find_caller : List Record → Nat → Option Nat
  | [], _ => none
  | r :: t, c => if r.caller = c then some 0 else (find_caller t c).map (· + 1)

/-- The same scan returning the record itself rather than its index; used to
state properties about the record a wrapper call operates on. -/
def find_rec : List Record → Nat → Option Record
  | [], _ => none
  | r :: t, c => if r.caller = c then some r else find_rec t c

/-- Overwrite the `status` field of the record at the given index (the effect
of a `rec->status |= bit;` store through the pointer `lookup_caller` returned). -/
def set_status_list : List Record → Nat → Nat → List Record
  | [], _, _ => []
  | r :: t, 0, s => ⟨r.caller, s⟩ :: t
  | r :: t, i + 1, s => r :: set_status_list t i s

/-- Table-level wrapper around `set_status_list`. -/
def set_status (d : Data) (i s : Nat) : Data :=
  { d with records := set_status_list d.records i s }

/-- `lookup_caller`: scan for the caller; if absent, `exit(EXIT_FAILURE)` when
`record_count >= max_records` (modelled as `none`), otherwise append a fresh
record with status `0` and return its index. -/
def lookup_caller (d : Data) (c : Nat) : Option (Data × Nat) :=
  match find_caller d.records c with
  | some i => some (d, i)
  | none =>
    if d.records.length ≥ d.max_records then
      none
    else
      some ({ d with records := d.records ++ [⟨c, 0⟩] }, d.records.length)

/-- Outcome of one intercepted allocation call.
`fatal` models `exit(EXIT_FAILURE)` raised from `lookup_caller`;
`failed d` models returning `NULL` WITHOUT calling through to the real
allocator (the forced-failure branch); `delegated d ret` models calling the
real allocator and returning its result `ret` unmodified. -/
inductive AllocResult where
  | fatal
  | failed (d : Data)
  | delegated (d : Data) (ret : Nat)
deriving DecidableEq

/-- The wrapper `malloc(size)`.  `rm` models the `real_malloc` function
pointer resolved by `dlsym`; `c` is the caller return address. -/
def malloc (rm : Nat → Nat) (size : Nat) (d : Data) (c : Nat) : AllocResult :=
  match lookup_caller d c with
  | none => .fatal
  | some (d1, i) =>
    let r0 := d1.records.getD i ⟨0, 0⟩
    if r0.status &&& tested_failure = 0 then
      .failed (set_status d1 i (r0.status ||| tested_failure))
    else
      .delegated (set_status d1 i (r0.status ||| tested_success)) (rm size)

/-- The wrapper `calloc(nmemb, size)`. -/
def calloc (rc : Nat → Nat → Nat) (nmemb size : Nat) (d : Data) (c : Nat) : AllocResult :=
  match lookup_caller d c with
  | none => .fatal
  | some (d1, i) =>
    let r0 := d1.records.getD i ⟨0, 0⟩
    if r0.status &&& tested_failure = 0 then
      .failed (set_status d1 i (r0.status ||| tested_failure))
    else
      .delegated (set_status d1 i (r0.status ||| tested_success)) (rc nmemb size)

/-- The wrapper `realloc(ptr, size)`. -/
def realloc (rr : Nat → Nat → Nat) (ptr size : Nat) (d : Data) (c : Nat) : AllocResult :=
  match lookup_caller d c with
  | none => .fatal
  | some (d1, i) =>
    let r0 := d1.records.getD i ⟨0, 0⟩
    if r0.status &&& tested_failure = 0 then
      .failed (set_status d1 i (r0.status ||| tested_failure))
    else
      .delegated (set_status d1 i (r0.status ||| tested_success)) (rr ptr size)

/-- The wrapper `strdup(s)`. -/
def strdup (rsd : Nat → Nat) (s : Nat) (d : Data) (c : Nat) : AllocResult :=
  match lookup_caller d c with
  | none => .fatal
  | some (d1, i) =>
    let r0 := d1.records.getD i ⟨0, 0⟩
    if r0.status &&& tested_failure = 0 then
      .failed (set_status d1 i (r0.status ||| tested_failure))
    else
      .delegated (set_status d1 i (r0.status ||| tested_success)) (rsd s)

/-- The wrapper `strndup(s, n)`. -/
def strndup (rsn : Nat → Nat → Nat) (s n : Nat) (d : Data) (c : Nat) : AllocResult :=
  match lookup_caller d c with
  | none => .fatal
  | some (d1, i) =>
    let r0 := d1.records.getD i ⟨0, 0⟩
    if r0.status &&& tested_failure = 0 then
      .failed (set_status d1 i (r0.status ||| tested_failure))
    else
      .delegated (set_status d1 i (r0.status ||| tested_success)) (rsn s n)

/-- The table transition shared by all five wrappers (the wrapper body with
the returned value abstracted away): `none` is the fatal capacity exit, the
`Bool` is `true` exactly on the forced-failure branch.  Each wrapper is
proved equal to this step below (`malloc_as_step` etc.). -/
def table_step (d : Data) (c : Nat) : Option (Data × Bool) :=
  match lookup_caller d c with
  | none => none
  | some (d1, i) =>
    let r0 := d1.records.getD i ⟨0, 0⟩
    if r0.status &&& tested_failure = 0 then
      some (set_status d1 i (r0.status ||| tested_failure), true)
    else
      some (set_status d1 i (r0.status ||| tested_success), false)

/-- Whether the table's record for caller `c` (the first match, as scanned by
`lookup_caller`) has the `tested_failure` bit set; `false` when `c` has no
record yet. -/
def site_failed (d : Data) (c : Nat) : Bool :=
  match find_rec d.records c with
  | some r => (r.status &&& tested_failure) != 0
  | none => false

/-- Whether the table's record for caller `c` has the `tested_success` bit set. -/
def site_succeeded (d : Data) (c : Nat) : Bool :=
  match find_rec d.records c with
  | some r => (r.status &&& tested_success) != 0
  | none => false

/-- Process a campaign's sequence of intercepted allocation calls (given by
their caller addresses) against the shared table; `none` when some call hit
the fatal capacity exit. -/
def run_trace (d : Data) : List Nat → Option Data
  | [] => some d
  | c :: cs =>
    match table_step d c with
    | none => none
    | some (d1, _) => run_trace d1 cs

/-- Number of calls in the trace that were forced failures at site `x`
(counting stops at a fatal capacity exit, which ends the campaign). -/
def failures (d : Data) : List Nat → Nat → Nat
  | [], _ => 0
  | c :: cs, x =>
    match table_step d c with
    | none => 0
    | some (d1, f) => (if c = x ∧ f = true then 1 else 0) + failures d1 cs x

/-- The rolling digest computed by `tests_complete`:
`checksum = checksum * 37 + status` over the records in order, in `size_t`
arithmetic (modulo `2 ^ 64`). -/
def checksumOf (rs : List Record) : Nat :=
  rs.foldl (fun c r => (c * 37 + r.status) % 2 ^ 64) 0

/-- The `done` accumulator of `tests_complete`: starts at `1`, and for each
record performs `done &= (status & tested_failure); done &= (status & tested_success);`
with C bitwise AND. -/
def doneOf (rs : List Record) : Nat :=
  rs.foldl (fun dn r => dn &&& (r.status &&& tested_failure) &&& (r.status &&& tested_success)) 1

/-- `tests_complete()`: the statics `last_record_count` / `last_checksum`
(their values from the previous call, initially `0`) are passed explicitly.
Returns the C function's `int done`; the driver loop in `run_tests` spawns
another run exactly when this is `0`. -/
def tests_complete (last_record_count last_checksum : Nat) (d : Data) : Nat :=
  let checksum := checksumOf d.records
  let dn := doneOf d.records
  if last_record_count = d.records.length ∧ last_checksum = checksum then 1 else dn

/-- Modelled from the spec (section 4.4): the full-coverage convergence
condition, "every record has both `has_failed` and `has_succeeded` set".
Stated from the spec's words to compare against the source's `tests_complete`. -/
def spec_full_coverage (d : Data) : Bool :=
  d.records.all fun r =>
    ((r.status &&& tested_failure) != 0) && ((r.status &&& tested_success) != 0)

/-- The final report emitted by `run_tests`: one row per record, carrying the
caller and the `Tested Success` / `Tested Failure` columns (in that order, as
printed). -/
def report (d : Data) : List (Nat × Bool × Bool) :=
  d.records.map fun r =>
    (r.caller, (r.status &&& tested_success) != 0, (r.status &&& tested_failure) != 0)

/-- Outcome of `init()`: either `exit(EXIT_FAILURE)` during setup, or control
proceeds into `run_tests`. -/
inductive InitResult where
  | fatal_exit
  | proceed
deriving DecidableEq

/-- The setup checks of `init()`.  The `dlsym` results for the five symbols
and the `mmap` result are passed as parameters (`0` models `NULL`).  The
source checks only `real_malloc`, `real_calloc` and `real_realloc` against
`NULL`, then checks `data == NULL` after `mmap`. -/
def init (rm rc rr rsd rsn mret : Nat) : InitResult :=
  if rm = 0 ∨ rc = 0 ∨ rr = 0 then .fatal_exit
  else if mret = 0 then .fatal_exit
  else .proceed

/-- Pointwise extension order on record lists: the first list is a prefix of
the second up to monotone status upgrades (same caller, status bits only
added). -/
inductive RecsLe : List Record → List Record → Prop
  | nil (bs : List Record) : RecsLe [] bs
  | cons {a b : Record} {as bs : List Record} :
      a.caller = b.caller → a.status &&& b.status = a.status →
      RecsLe as bs → RecsLe (a :: as) (b :: bs)

/-- Table evolution: capacity unchanged, records extended per `RecsLe`. -/
def evolves (d d' : Data) : Prop :=
  d'.max_records = d.max_records ∧ RecsLe d.records d'.records

/-- The caller fields of the records are pairwise distinct. -/
def nodup_callers : List Record → Bool
  | [] => true
  | r :: t => (find_rec t r.caller).isNone && nodup_callers t

/-- Size measure on record lists used for the termination argument: each
record weighs `4` plus its status value, so any `RecsLe`-progress (a new
record or a new status bit) strictly increases it. -/
def measure_recs : List Record → Nat
  | [] => 0
  | r :: t => 4 + r.status + measure_recs t

/-- Reachable-table invariant: capacity is `1024` as set by `init`, the count
respects it, and every status is a combination of the two flag bits. -/
def wf (d : Data) : Prop :=
  d.max_records = 1024 ∧ d.records.length ≤ d.max_records ∧ ∀ r ∈ d.records, r.status ≤ 3

/-- Record list `⟨0, 3⟩, ⟨1, 3⟩, …, ⟨n - 1, 3⟩`: `n` records for `n` distinct
callers, each already failure- and success-tested. -/
def callers_upto : Nat → List Record
  | 0 => []
  | n + 1 => callers_upto n ++ [⟨n, 3⟩]

/-- A table at capacity: 1024 records for 1024 distinct callers, as left by a
campaign that has discovered `max_records` distinct call sites. -/
def full_table : Data := ⟨1024, callers_upto 1024⟩

/-! Bitwise helper lemmas for the two status flags. -/

theorem lor_land_self (x y : Nat) : (x ||| y) &&& y = y := by
  apply Nat.eq_of_testBit_eq
  intro i
  simp only [Nat.testBit_and, Nat.testBit_or]
  cases x.testBit i <;> cases y.testBit i <;> rfl

theorem land_lor_self (x y : Nat) : x &&& (x ||| y) = x := by
  apply Nat.eq_of_testBit_eq
  intro i
  simp only [Nat.testBit_and, Nat.testBit_or]
  cases x.testBit i <;> cases y.testBit i <;> rfl

theorem land_lor_distrib (x y z : Nat) : (x ||| y) &&& z = (x &&& z) ||| (y &&& z) := by
  apply Nat.eq_of_testBit_eq
  intro i
  simp only [Nat.testBit_and, Nat.testBit_or]
  cases x.testBit i <;> cases y.testBit i <;> cases z.testBit i <;> rfl

theorem lor_two_land_one (x : Nat) : (x ||| 2) &&& 1 = x &&& 1 := by
  rw [land_lor_distrib]
  norm_num

theorem or_le_three {x y : Nat} (hx : x ≤ 3) (hy : y ≤ 3) : x ||| y ≤ 3 := by
  interval_cases x <;> interval_cases y <;> decide

/-! Lemmas about the scanning loop (`find_caller` / `find_rec`) and the
in-place status store (`set_status_list`). -/

theorem find_caller_none_iff {c : Nat} :
    ∀ {rs : List Record}, find_caller rs c = none ↔ find_rec rs c = none := by
  intro rs
  induction rs with
  | nil => simp [find_caller, find_rec]
  | cons r t ih =>
    by_cases h : r.caller = c
    · simp [find_caller, find_rec, h]
    · simp [find_caller, find_rec, h, Option.map_eq_none', ih]

theorem find_caller_some :
    ∀ (rs : List Record) (c i : Nat), find_caller rs c = some i →
      i < rs.length ∧ find_rec rs c = some (rs.getD i ⟨0, 0⟩) ∧
        (rs.getD i ⟨0, 0⟩).caller = c := by
  intro rs
  induction rs with
  | nil => intro c i h; simp [find_caller] at h
  | cons r t ih =>
    intro c i h
    by_cases hc : r.caller = c
    · simp [find_caller, hc] at h
      subst h
      simp [find_rec, hc]
    · simp [find_caller, hc, Option.map_eq_some'] at h
      obtain ⟨j, hj, rfl⟩ := h
      obtain ⟨h1, h2, h3⟩ := ih c j hj
      refine ⟨by simpa using Nat.succ_lt_succ h1, ?_, ?_⟩
      · simpa [find_rec, hc] using h2
      · simpa using h3

theorem find_rec_some_mem :
    ∀ {rs : List Record} {c : Nat} {r : Record}, find_rec rs c = some r →
      r ∈ rs ∧ r.caller = c := by
  intro rs
  induction rs with
  | nil => intro c r h; simp [find_rec] at h
  | cons a t ih =>
    intro c r h
    by_cases hc : a.caller = c
    · simp [find_rec, hc] at h
      subst h
      exact ⟨List.mem_cons_self _ _, hc⟩
    · simp [find_rec, hc] at h
      obtain ⟨h1, h2⟩ := ih h
      exact ⟨List.mem_cons_of_mem _ h1, h2⟩

theorem find_rec_none_spec :
    ∀ {rs : List Record} {c : Nat}, find_rec rs c = none → ∀ r ∈ rs, r.caller ≠ c := by
  intro rs
  induction rs with
  | nil => intro c _ r hr; simp at hr
  | cons a t ih =>
    intro c h r hr
    by_cases hc : a.caller = c
    · simp [find_rec, hc] at h
    · simp [find_rec, hc] at h
      rcases List.mem_cons.mp hr with rfl | hr
      · exact hc
      · exact ih h r hr

theorem getD_append_len :
    ∀ (rs : List Record) (r : Record), (rs ++ [r]).getD rs.length ⟨0, 0⟩ = r := by
  intro rs r
  induction rs with
  | nil => rfl
  | cons a t ih => simpa using ih

theorem set_status_list_append_len :
    ∀ (rs : List Record) (r : Record) (s : Nat),
      set_status_list (rs ++ [r]) rs.length s = rs ++ [⟨r.caller, s⟩] := by
  intro rs r s
  induction rs with
  | nil => rfl
  | cons a t ih => simp [set_status_list, ih]

theorem find_rec_append_of_none {rs : List Record} {x : Nat}
    (h : find_rec rs x = none) (ts : List Record) :
    find_rec (rs ++ ts) x = find_rec ts x := by
  induction rs with
  | nil => rfl
  | cons a t ih =>
    by_cases hc : a.caller = x
    · simp [find_rec, hc] at h
    · simp [find_rec, hc] at h ⊢
      exact ih h

theorem find_rec_eq_none_of_forall :
    ∀ {rs : List Record} {c : Nat}, (∀ r ∈ rs, r.caller ≠ c) → find_rec rs c = none := by
  intro rs
  induction rs with
  | nil => intro c _; rfl
  | cons a t ih =>
    intro c h
    have ha : a.caller ≠ c := h a (List.mem_cons_self _ _)
    simp only [find_rec]
    rw [if_neg ha]
    exact ih fun r hr => h r (List.mem_cons_of_mem _ hr)

theorem find_rec_append_of_some {rs : List Record} {x : Nat} {r : Record}
    (h : find_rec rs x = some r) (ts : List Record) :
    find_rec (rs ++ ts) x = some r := by
  induction rs with
  | nil => simp [find_rec] at h
  | cons a t ih =>
    by_cases hax : a.caller = x
    · simp [find_rec, hax] at h ⊢; exact h
    · simp [find_rec, hax] at h ⊢; exact ih h

theorem find_rec_set_at :
    ∀ (rs : List Record) (c i s : Nat), find_caller rs c = some i →
      find_rec (set_status_list rs i s) c = some ⟨c, s⟩ := by
  intro rs
  induction rs with
  | nil => intro c i s h; simp [find_caller] at h
  | cons r t ih =>
    intro c i s h
    by_cases hc : r.caller = c
    · simp [find_caller, hc] at h
      subst h
      simp [set_status_list, find_rec, hc]
    · simp [find_caller, hc, Option.map_eq_some'] at h
      obtain ⟨j, hj, rfl⟩ := h
      simp [set_status_list, find_rec, hc]
      exact ih c j s hj

theorem find_rec_set_ne :
    ∀ (rs : List Record) (c i s x : Nat), find_caller rs c = some i → x ≠ c →
      find_rec (set_status_list rs i s) x = find_rec rs x := by
  intro rs
  induction rs with
  | nil => intro c i s x h _; simp [find_caller] at h
  | cons r t ih =>
    intro c i s x h hx
    by_cases hc : r.caller = c
    · simp [find_caller, hc] at h
      subst h
      have hrx : r.caller ≠ x := by rw [hc]; exact fun he => hx he.symm
      simp [set_status_list, find_rec, hrx]
    · simp [find_caller, hc, Option.map_eq_some'] at h
      obtain ⟨j, hj, rfl⟩ := h
      by_cases hrx : r.caller = x
      · simp [set_status_list, find_rec, hrx]
      · simp [set_status_list, find_rec, hrx]
        exact ih c j s x hj hx

theorem find_rec_isNone_set :
    ∀ (rs : List Record) (i s x : Nat),
      (find_rec (set_status_list rs i s) x).isNone = (find_rec rs x).isNone := by
  intro rs
  induction rs with
  | nil => intro i s x; rfl
  | cons r t ih =>
    intro i s x
    cases i with
    | zero =>
      by_cases hrx : r.caller = x <;> simp [set_status_list, find_rec, hrx]
    | succ j =>
      by_cases hrx : r.caller = x <;> simp [set_status_list, find_rec, hrx, ih]

theorem set_status_list_length :
    ∀ (rs : List Record) (i s : Nat), (set_status_list rs i s).length = rs.length := by
  intro rs
  induction rs with
  | nil => intro i s; rfl
  | cons r t ih =>
    intro i s
    cases i with
    | zero => rfl
    | succ j => simp [set_status_list, ih]

theorem mem_set_status_list :
    ∀ {rs : List Record} {i s : Nat} {r : Record}, r ∈ set_status_list rs i s →
      r ∈ rs ∨ r = ⟨(rs.getD i ⟨0, 0⟩).caller, s⟩ := by
  intro rs
  induction rs with
  | nil => intro i s r h; simp [set_status_list] at h
  | cons a t ih =>
    intro i s r h
    cases i with
    | zero =>
      rcases List.mem_cons.mp h with rfl | hr
      · right; rfl
      · left; exact List.mem_cons_of_mem _ hr
    | succ j =>
      rcases List.mem_cons.mp h with rfl | hr
      · left; exact List.mem_cons_self _ _
      · rcases ih hr with hl | he
        · left; exact List.mem_cons_of_mem _ hl
        · right; simpa using he

theorem getD_mem :
    ∀ {rs : List Record} {i : Nat}, i < rs.length → rs.getD i ⟨0, 0⟩ ∈ rs := by
  intro rs
  induction rs with
  | nil => intro i h; simp at h
  | cons a t ih =>
    intro i h
    cases i with
    | zero => exact List.mem_cons_self _ _
    | succ j =>
      simp only [List.getD_cons_succ]
      exact List.mem_cons_of_mem _ (ih (by simpa using Nat.lt_of_succ_lt_succ h))

/-! Characterization of one intercepted call's table transition. -/

theorem table_step_found_unfailed (d : Data) (c i : Nat)
    (h : find_caller d.records c = some i)
    (hf : (d.records.getD i ⟨0, 0⟩).status &&& tested_failure = 0) :
    table_step d c =
      some (set_status d i ((d.records.getD i ⟨0, 0⟩).status ||| tested_failure), true) := by
  simp only [table_step, lookup_caller, h]
  rw [if_pos hf]

theorem table_step_found_failed (d : Data) (c i : Nat)
    (h : find_caller d.records c = some i)
    (hf : (d.records.getD i ⟨0, 0⟩).status &&& tested_failure ≠ 0) :
    table_step d c =
      some (set_status d i ((d.records.getD i ⟨0, 0⟩).status ||| tested_success), false) := by
  simp only [table_step, lookup_caller, h]
  rw [if_neg hf]

theorem table_step_fresh (d : Data) (c : Nat)
    (h : find_caller d.records c = none) (hcap : d.records.length < d.max_records) :
    table_step d c = some ({ d with records := d.records ++ [⟨c, 1⟩] }, true) := by
  have hcap' : ¬ d.records.length ≥ d.max_records := by omega
  have hg : (d.records ++ [(⟨c, 0⟩ : Record)]).getD d.records.length ⟨0, 0⟩ = (⟨c, 0⟩ : Record) :=
    getD_append_len _ _
  have h01 : (0 : Nat) ||| 1 = 1 := by decide
  simp only [table_step, lookup_caller, h]
  rw [if_neg hcap']
  dsimp only
  rw [hg]
  dsimp only
  rw [if_pos (by decide)]
  simp only [set_status, set_status_list_append_len, tested_failure, h01]

theorem table_step_cap (d : Data) (c : Nat)
    (h : find_rec d.records c = none) (hcap : d.records.length ≥ d.max_records) :
    lookup_caller d c = none ∧ table_step d c = none := by
  have h' : find_caller d.records c = none := find_caller_none_iff.mpr h
  constructor <;> simp [lookup_caller, table_step, h', hcap]

/-- Master case split for a non-fatal intercepted call. -/
theorem table_step_some_cases {d : Data} {c : Nat} {d1 : Data} {f : Bool}
    (h : table_step d c = some (d1, f)) :
    (∃ i, find_caller d.records c = some i ∧
      ((d.records.getD i ⟨0, 0⟩).status &&& tested_failure = 0 ∧ f = true ∧
          d1 = set_status d i ((d.records.getD i ⟨0, 0⟩).status ||| tested_failure) ∨
        (d.records.getD i ⟨0, 0⟩).status &&& tested_failure ≠ 0 ∧ f = false ∧
          d1 = set_status d i ((d.records.getD i ⟨0, 0⟩).status ||| tested_success))) ∨
    (find_caller d.records c = none ∧ d.records.length < d.max_records ∧ f = true ∧
      d1 = { d with records := d.records ++ [⟨c, 1⟩] }) := by
  cases hfc : find_caller d.records c with
  | some i =>
    left
    refine ⟨i, rfl, ?_⟩
    by_cases hf : (d.records.getD i ⟨0, 0⟩).status &&& tested_failure = 0
    · left
      rw [table_step_found_unfailed d c i hfc hf] at h
      injection h with hpair
      exact ⟨hf, (congrArg Prod.snd hpair).symm, (congrArg Prod.fst hpair).symm⟩
    · right
      rw [table_step_found_failed d c i hfc hf] at h
      injection h with hpair
      exact ⟨hf, (congrArg Prod.snd hpair).symm, (congrArg Prod.fst hpair).symm⟩
  | none =>
    right
    by_cases hcap : d.records.length < d.max_records
    · rw [table_step_fresh d c hfc hcap] at h
      injection h with hpair
      exact ⟨rfl, hcap, (congrArg Prod.snd hpair).symm, (congrArg Prod.fst hpair).symm⟩
    · have := (table_step_cap d c (find_caller_none_iff.mp hfc) (by omega)).2
      rw [this] at h
      exact absurd h (by simp)

/-! How one step moves the per-site flags. -/

theorem site_failed_set_at (d : Data) {c i : Nat}
    (hfc : find_caller d.records c = some i) (s : Nat) :
    site_failed (set_status d i s) c = ((s &&& tested_failure) != 0) := by
  simp only [site_failed, set_status]
  rw [find_rec_set_at d.records c i s hfc]

theorem site_succeeded_set_at (d : Data) {c i : Nat}
    (hfc : find_caller d.records c = some i) (s : Nat) :
    site_succeeded (set_status d i s) c = ((s &&& tested_success) != 0) := by
  simp only [site_succeeded, set_status]
  rw [find_rec_set_at d.records c i s hfc]

theorem site_failed_set_ne (d : Data) {c i : Nat}
    (hfc : find_caller d.records c = some i) (s : Nat) {x : Nat} (hx : x ≠ c) :
    site_failed (set_status d i s) x = site_failed d x := by
  simp only [site_failed, set_status]
  rw [find_rec_set_ne d.records c i s x hfc hx]

theorem site_failed_eq_of_found {d : Data} {c i : Nat}
    (hfc : find_caller d.records c = some i) :
    site_failed d c = (((d.records.getD i ⟨0, 0⟩).status &&& tested_failure) != 0) := by
  obtain ⟨_, hrec, _⟩ := find_caller_some d.records c i hfc
  simp only [site_failed]
  rw [hrec]

theorem site_failed_eq_of_absent {d : Data} {c : Nat}
    (hrn : find_rec d.records c = none) : site_failed d c = false := by
  simp only [site_failed]
  rw [hrn]

theorem step_sets_failed {d : Data} {c : Nat} {d1 : Data} {f : Bool}
    (h : table_step d c = some (d1, f)) : site_failed d1 c = true := by
  rcases table_step_some_cases h with ⟨i, hfc, hcase⟩ | ⟨hfc, _, _, hd1⟩
  · rcases hcase with ⟨_, _, hd1⟩ | ⟨hf, _, hd1⟩
    · subst hd1
      rw [site_failed_set_at d hfc]
      rw [lor_land_self]
      rfl
    · subst hd1
      rw [site_failed_set_at d hfc]
      have h2 : ((d.records.getD i ⟨0, 0⟩).status ||| tested_success) &&& tested_failure
          = (d.records.getD i ⟨0, 0⟩).status &&& tested_failure := lor_two_land_one _
      rw [h2]
      exact bne_iff_ne.mpr hf
  · subst hd1
    have hrn : find_rec d.records c = none := find_caller_none_iff.mp hfc
    simp only [site_failed]
    rw [find_rec_append_of_none hrn]
    simp [find_rec, tested_failure]

theorem step_forced_iff {d : Data} {c : Nat} {d1 : Data} {f : Bool}
    (h : table_step d c = some (d1, f)) : f = true ↔ site_failed d c = false := by
  rcases table_step_some_cases h with ⟨i, hfc, hcase⟩ | ⟨hfc, _, hf, _⟩
  · rcases hcase with ⟨hf, hft, _⟩ | ⟨hf, hff, _⟩
    · rw [hft, site_failed_eq_of_found hfc, hf]
      simp
    · rw [hff, site_failed_eq_of_found hfc, bne_iff_ne.mpr hf]
      simp
  · rw [hf, site_failed_eq_of_absent (find_caller_none_iff.mp hfc)]
    simp

theorem step_preserves_other {d : Data} {c : Nat} {d1 : Data} {f : Bool} {x : Nat}
    (h : table_step d c = some (d1, f)) (hx : x ≠ c) :
    site_failed d1 x = site_failed d x := by
  rcases table_step_some_cases h with ⟨i, hfc, hcase⟩ | ⟨hfc, _, _, hd1⟩
  · rcases hcase with ⟨_, _, hd1⟩ | ⟨_, _, hd1⟩ <;>
      (subst hd1; exact site_failed_set_ne d hfc _ hx)
  · subst hd1
    have hxc : ¬ (⟨c, 1⟩ : Record).caller = x := fun he => hx he.symm
    simp only [site_failed]
    cases hr : find_rec d.records x with
    | none =>
      rw [find_rec_append_of_none hr]
      simp [find_rec, hxc]
    | some r =>
      rw [find_rec_append_of_some hr]

theorem step_sets_succeeded {d : Data} {c : Nat} {d1 : Data}
    (h : table_step d c = some (d1, false)) : site_succeeded d1 c = true := by
  rcases table_step_some_cases h with ⟨i, hfc, hcase⟩ | ⟨_, _, hf, _⟩
  · rcases hcase with ⟨_, hft, _⟩ | ⟨_, _, hd1⟩
    · exact absurd hft (by simp)
    · subst hd1
      rw [site_succeeded_set_at d hfc]
      rw [lor_land_self]
      rfl
  · exact absurd hf (by simp)

theorem step_of_failed_site {d : Data} {c : Nat} (h : site_failed d c = true) :
    ∃ d1, table_step d c = some (d1, false) := by
  cases hfc : find_caller d.records c with
  | none =>
    rw [site_failed_eq_of_absent (find_caller_none_iff.mp hfc)] at h
    exact absurd h (by simp)
  | some i =>
    have hf : (d.records.getD i ⟨0, 0⟩).status &&& tested_failure ≠ 0 := by
      rw [site_failed_eq_of_found hfc] at h
      exact bne_iff_ne.mp h
    exact ⟨_, table_step_found_failed d c i hfc hf⟩

theorem step_of_unfailed_site {d : Data} {c : Nat}
    (hs : (lookup_caller d c).isSome) (h : site_failed d c = false) :
    ∃ d1, table_step d c = some (d1, true) := by
  cases hfc : find_caller d.records c with
  | some i =>
    have hf : (d.records.getD i ⟨0, 0⟩).status &&& tested_failure = 0 := by
      rw [site_failed_eq_of_found hfc] at h
      simpa using h
    exact ⟨_, table_step_found_unfailed d c i hfc hf⟩
  | none =>
    by_cases hcap : d.records.length < d.max_records
    · exact ⟨_, table_step_fresh d c hfc hcap⟩
    · have := (table_step_cap d c (find_caller_none_iff.mp hfc) (by omega)).1
      rw [this] at hs
      exact absurd hs (by simp)

/-! Each wrapper equals the shared table transition with its own returned
value plugged in. -/

theorem malloc_as_step (rm : Nat → Nat) (sz : Nat) (d : Data) (c : Nat) :
    malloc rm sz d c =
      (match table_step d c with
        | none => .fatal
        | some (d1, true) => .failed d1
        | some (d1, false) => .delegated d1 (rm sz)) := by
  cases h : lookup_caller d c with
  | none => simp [malloc, table_step, h]
  | some p =>
    obtain ⟨d1, i⟩ := p
    by_cases hf : (d1.records.getD i ⟨0, 0⟩).status &&& tested_failure = 0
    · simp only [malloc, table_step, h]
      rw [if_pos hf, if_pos hf]
    · simp only [malloc, table_step, h]
      rw [if_neg hf, if_neg hf]

theorem calloc_as_step (rc : Nat → Nat → Nat) (nm sz : Nat) (d : Data) (c : Nat) :
    calloc rc nm sz d c =
      (match table_step d c with
        | none => .fatal
        | some (d1, true) => .failed d1
        | some (d1, false) => .delegated d1 (rc nm sz)) := by
  cases h : lookup_caller d c with
  | none => simp [calloc, table_step, h]
  | some p =>
    obtain ⟨d1, i⟩ := p
    by_cases hf : (d1.records.getD i ⟨0, 0⟩).status &&& tested_failure = 0
    · simp only [calloc, table_step, h]
      rw [if_pos hf, if_pos hf]
    · simp only [calloc, table_step, h]
      rw [if_neg hf, if_neg hf]

theorem realloc_as_step (rr : Nat → Nat → Nat) (p sz : Nat) (d : Data) (c : Nat) :
    realloc rr p sz d c =
      (match table_step d c with
        | none => .fatal
        | some (d1, true) => .failed d1
        | some (d1, false) => .delegated d1 (rr p sz)) := by
  cases h : lookup_caller d c with
  | none => simp [realloc, table_step, h]
  | some q =>
    obtain ⟨d1, i⟩ := q
    by_cases hf : (d1.records.getD i ⟨0, 0⟩).status &&& tested_failure = 0
    · simp only [realloc, table_step, h]
      rw [if_pos hf, if_pos hf]
    · simp only [realloc, table_step, h]
      rw [if_neg hf, if_neg hf]

theorem strdup_as_step (rsd : Nat → Nat) (s : Nat) (d : Data) (c : Nat) :
    strdup rsd s d c =
      (match table_step d c with
        | none => .fatal
        | some (d1, true) => .failed d1
        | some (d1, false) => .delegated d1 (rsd s)) := by
  cases h : lookup_caller d c with
  | none => simp [strdup, table_step, h]
  | some p =>
    obtain ⟨d1, i⟩ := p
    by_cases hf : (d1.records.getD i ⟨0, 0⟩).status &&& tested_failure = 0
    · simp only [strdup, table_step, h]
      rw [if_pos hf, if_pos hf]
    · simp only [strdup, table_step, h]
      rw [if_neg hf, if_neg hf]

theorem strndup_as_step (rsn : Nat → Nat → Nat) (s n : Nat) (d : Data) (c : Nat) :
    strndup rsn s n d c =
      (match table_step d c with
        | none => .fatal
        | some (d1, true) => .failed d1
        | some (d1, false) => .delegated d1 (rsn s n)) := by
  cases h : lookup_caller d c with
  | none => simp [strndup, table_step, h]
  | some p =>
    obtain ⟨d1, i⟩ := p
    by_cases hf : (d1.records.getD i ⟨0, 0⟩).status &&& tested_failure = 0
    · simp only [strndup, table_step, h]
      rw [if_pos hf, if_pos hf]
    · simp only [strndup, table_step, h]
      rw [if_neg hf, if_neg hf]

/-! Campaign-trace lemmas. -/

/-- Closed form for the per-site forced-failure count of a successfully
processed trace: one failure iff the site is hit and was not already marked. -/
theorem failures_formula :
    ∀ (t : List Nat) (d : Data) (x : Nat), (run_trace d t).isSome →
      failures d t x = if site_failed d x = false ∧ x ∈ t then 1 else 0 := by
  intro t
  induction t with
  | nil => intro d x _; simp [failures]
  | cons c cs ih =>
    intro d x h
    cases hstep : table_step d c with
    | none => rw [run_trace, hstep] at h; exact absurd h (by simp)
    | some p =>
      obtain ⟨d1, f⟩ := p
      have hrun : (run_trace d1 cs).isSome := by rw [run_trace, hstep] at h; exact h
      rw [failures, hstep]
      dsimp only
      rw [ih d1 x hrun]
      by_cases hx : x = c
      · subst hx
        have hf1 : site_failed d1 x = true := step_sets_failed hstep
        have hiff := step_forced_iff hstep
        rw [hf1]
        by_cases hsf : site_failed d x = false
        · have hft : f = true := hiff.mpr hsf
          simp [hft, hsf]
        · have hff : f = false := by
            cases hfv : f with
            | true => exact absurd (hiff.mp hfv) hsf
            | false => rfl
          simp [hff, hsf]
      · have hpres := step_preserves_other hstep (by exact hx)
        have hxc : ¬ c = x := fun he => hx he.symm
        have hmem : (x ∈ c :: cs) ↔ x ∈ cs := by
          simp [List.mem_cons]
          intro he
          exact absurd he hx
        rw [hpres]
        by_cases hcs : x ∈ cs <;> by_cases hsf : site_failed d x = false <;>
          simp [hxc, hcs, hsf, hmem]

/-! Evolution order on record lists. -/

theorem recsle_refl : ∀ rs : List Record, RecsLe rs rs := by
  intro rs
  induction rs with
  | nil => exact RecsLe.nil []
  | cons r t ih => exact RecsLe.cons rfl (Nat.and_self _) ih

theorem recsle_trans : ∀ {as bs cs : List Record}, RecsLe as bs → RecsLe bs cs → RecsLe as cs := by
  intro as bs cs h1
  induction h1 generalizing cs with
  | nil => intro _; exact RecsLe.nil _
  | @cons a b as' bs' hc hs _ ih =>
    intro h2
    cases h2 with
    | cons hc2 hs2 htl2 =>
      refine RecsLe.cons (hc.trans hc2) ?_ (ih htl2)
      calc a.status &&& _ = (a.status &&& b.status) &&& _ := by rw [hs]
        _ = a.status &&& (b.status &&& _) := Nat.and_assoc ..
        _ = a.status &&& b.status := by rw [hs2]
        _ = a.status := hs

theorem recsle_append : ∀ (rs ts : List Record), RecsLe rs (rs ++ ts) := by
  intro rs ts
  induction rs with
  | nil => exact RecsLe.nil _
  | cons r t ih => exact RecsLe.cons rfl (Nat.and_self _) ih

theorem recsle_set :
    ∀ (rs : List Record) (i b : Nat),
      RecsLe rs (set_status_list rs i ((rs.getD i ⟨0, 0⟩).status ||| b)) := by
  intro rs
  induction rs with
  | nil => intro i b; exact RecsLe.nil _
  | cons r t ih =>
    intro i b
    cases i with
    | zero => exact RecsLe.cons rfl (land_lor_self _ _) (recsle_refl t)
    | succ j => exact RecsLe.cons rfl (Nat.and_self _) (ih j b)

theorem step_evolves {d : Data} {c : Nat} {d1 : Data} {f : Bool}
    (h : table_step d c = some (d1, f)) :
    d1.max_records = d.max_records ∧ RecsLe d.records d1.records := by
  rcases table_step_some_cases h with ⟨i, _, hcase⟩ | ⟨_, _, _, hd1⟩
  · rcases hcase with ⟨_, _, hd1⟩ | ⟨_, _, hd1⟩ <;>
      (subst hd1; exact ⟨rfl, recsle_set d.records i _⟩)
  · subst hd1
    exact ⟨rfl, recsle_append d.records [⟨c, 1⟩]⟩

/-! Uniqueness of caller values is preserved. -/

theorem nodup_callers_set :
    ∀ (rs : List Record) (i s : Nat), nodup_callers (set_status_list rs i s) = nodup_callers rs := by
  intro rs
  induction rs with
  | nil => intro i s; rfl
  | cons r t ih =>
    intro i s
    cases i with
    | zero => rfl
    | succ j =>
      show ((find_rec (set_status_list t j s) r.caller).isNone
            && nodup_callers (set_status_list t j s))
          = ((find_rec t r.caller).isNone && nodup_callers t)
      rw [find_rec_isNone_set, ih]

theorem nodup_callers_append_fresh :
    ∀ {rs : List Record} {c st : Nat}, nodup_callers rs = true → find_rec rs c = none →
      nodup_callers (rs ++ [⟨c, st⟩]) = true := by
  intro rs
  induction rs with
  | nil => intro c st _ _; rfl
  | cons r t ih =>
    intro c st hnd hfr
    have hrc : r.caller ≠ c := by
      by_cases hq : r.caller = c
      · simp [find_rec, hq] at hfr
      · exact hq
    have hfr' : find_rec t c = none := by
      simp [find_rec, hrc] at hfr
      exact hfr
    have hnd1 : (find_rec t r.caller).isNone = true := by
      simp only [nodup_callers, Bool.and_eq_true] at hnd
      exact hnd.1
    have hnd2 : nodup_callers t = true := by
      simp only [nodup_callers, Bool.and_eq_true] at hnd
      exact hnd.2
    have htn : find_rec t r.caller = none := by
      cases hq : find_rec t r.caller with
      | none => rfl
      | some _ => rw [hq] at hnd1; exact absurd hnd1 (by simp)
    have hap : find_rec (t ++ [⟨c, st⟩]) r.caller = none := by
      rw [find_rec_append_of_none htn]
      have : ¬ (⟨c, st⟩ : Record).caller = r.caller := fun he => hrc he.symm
      simp [find_rec, this]
    show ((find_rec (t ++ [⟨c, st⟩]) r.caller).isNone && nodup_callers (t ++ [⟨c, st⟩])) = true
    rw [hap, ih hnd2 hfr']
    rfl

theorem step_nodup {d : Data} {c : Nat} {d1 : Data} {f : Bool}
    (h : table_step d c = some (d1, f)) (hnd : nodup_callers d.records = true) :
    nodup_callers d1.records = true := by
  rcases table_step_some_cases h with ⟨i, _, hcase⟩ | ⟨hfc, _, _, hd1⟩
  · rcases hcase with ⟨_, _, hd1⟩ | ⟨_, _, hd1⟩ <;>
      (subst hd1; show nodup_callers (set_status_list d.records i _) = true;
        rw [nodup_callers_set]; exact hnd)
  · subst hd1
    exact nodup_callers_append_fresh hnd (find_caller_none_iff.mp hfc)

/-! The reachable-table invariant is preserved. -/

theorem step_wf {d : Data} {c : Nat} {d1 : Data} {f : Bool}
    (h : table_step d c = some (d1, f)) (hw : wf d) : wf d1 := by
  obtain ⟨hmax, hlen, hst⟩ := hw
  rcases table_step_some_cases h with ⟨i, hfc, hcase⟩ | ⟨_, hcap, _, hd1⟩
  · have hi : i < d.records.length := (find_caller_some d.records c i hfc).1
    have hmem := getD_mem hi
    have hb : (d.records.getD i ⟨0, 0⟩).status ≤ 3 := hst _ hmem
    have hnew : ∀ b ≤ 3, ∀ r ∈ set_status_list d.records i ((d.records.getD i ⟨0, 0⟩).status ||| b),
        r.status ≤ 3 := by
      intro b hb3 r hr
      rcases mem_set_status_list hr with hold | hnewr
      · exact hst r hold
      · rw [hnewr]
        exact or_le_three hb hb3
    rcases hcase with ⟨_, _, hd1⟩ | ⟨_, _, hd1⟩ <;> subst hd1
    · exact ⟨hmax, by rw [show (set_status d i _).records = set_status_list d.records i _ from rfl,
        set_status_list_length]; exact hlen, hnew tested_failure (by decide)⟩
    · exact ⟨hmax, by rw [show (set_status d i _).records = set_status_list d.records i _ from rfl,
        set_status_list_length]; exact hlen, hnew tested_success (by decide)⟩
  · subst hd1
    refine ⟨hmax, ?_, ?_⟩
    · simp only [List.length_append, List.length_cons, List.length_nil]
      omega
    · intro r hr
      rcases List.mem_append.mp hr with hold | hnewr
      · exact hst r hold
      · have : r = ⟨c, 1⟩ := by simpa using hnewr
        rw [this]
        show (1 : Nat) ≤ 3
        decide

/-- Everything `run_trace` preserves, in one induction: evolution, caller
uniqueness, and the reachable-table invariant. -/
theorem run_trace_inv :
    ∀ (t : List Nat) (d d' : Data), run_trace d t = some d' →
      (d'.max_records = d.max_records ∧ RecsLe d.records d'.records) ∧
      (nodup_callers d.records = true → nodup_callers d'.records = true) ∧
      (wf d → wf d') := by
  intro t
  induction t with
  | nil =>
    intro d d' h
    rw [run_trace] at h
    injection h with h
    subst h
    exact ⟨⟨rfl, recsle_refl _⟩, id, id⟩
  | cons c cs ih =>
    intro d d' h
    cases hstep : table_step d c with
    | none => rw [run_trace, hstep] at h; exact absurd h (by simp)
    | some p =>
      obtain ⟨d1, f⟩ := p
      have h1 : run_trace d1 cs = some d' := by rw [run_trace, hstep] at h; exact h
      have hev := step_evolves hstep
      obtain ⟨⟨hm, hr⟩, hn, hw⟩ := ih d1 d' h1
      exact ⟨⟨hm.trans hev.1, recsle_trans hev.2 hr⟩,
        fun hnd => hn (step_nodup hstep hnd),
        fun hwf => hw (step_wf hstep hwf)⟩

/-! Termination measure. -/

theorem recsle_measure_le : ∀ {as bs : List Record}, RecsLe as bs →
    measure_recs as ≤ measure_recs bs := by
  intro as bs h
  induction h with
  | nil => exact Nat.zero_le _
  | @cons a b as' bs' _ hs _ ih =>
    have hab : a.status ≤ b.status := by
      calc a.status = a.status &&& b.status := hs.symm
        _ ≤ b.status := Nat.and_le_right
    simp only [measure_recs]
    omega

theorem recsle_measure_eq : ∀ {as bs : List Record}, RecsLe as bs →
    measure_recs as = measure_recs bs → as = bs := by
  intro as bs h
  induction h with
  | nil bs =>
    intro he
    cases bs with
    | nil => rfl
    | cons b t =>
      exfalso
      simp only [measure_recs] at he
      omega
  | @cons a b as' bs' hc hs htl ih =>
    intro he
    have hab : a.status ≤ b.status := by
      calc a.status = a.status &&& b.status := hs.symm
        _ ≤ b.status := Nat.and_le_right
    have htle : measure_recs as' ≤ measure_recs bs' := recsle_measure_le htl
    simp only [measure_recs] at he
    have h1 : a.status = b.status := by omega
    have h2 : measure_recs as' = measure_recs bs' := by omega
    have hhead : a = b := by
      cases a with
      | mk ca sa =>
        cases b with
        | mk cb sb =>
          simp only at hc h1
          rw [hc, h1]
    rw [hhead, ih h2]

theorem measure_recs_le_of_bounded :
    ∀ rs : List Record, (∀ r ∈ rs, r.status ≤ 3) → measure_recs rs ≤ 7 * rs.length := by
  intro rs
  induction rs with
  | nil => intro _; simp [measure_recs]
  | cons r t ih =>
    intro hb
    have hr : r.status ≤ 3 := hb r (List.mem_cons_self _ _)
    have ht := ih fun x hx => hb x (List.mem_cons_of_mem _ hx)
    simp only [measure_recs, List.length_cons]
    omega

theorem measure_le_of_wf {d : Data} (hw : wf d) : measure_recs d.records ≤ 7168 := by
  obtain ⟨hmax, hlen, hst⟩ := hw
  have h1 := measure_recs_le_of_bounded d.records hst
  have h2 : d.records.length ≤ 1024 := by omega
  omega

/-- A monotone, bounded sequence of naturals has two equal consecutive values. -/
theorem exists_consec_eq (f : ℕ → ℕ) (B : ℕ)
    (hm : ∀ n, f n ≤ f (n + 1)) (hb : ∀ n, f n ≤ B) : ∃ n, f n = f (n + 1) := by
  by_contra hcon
  push_neg at hcon
  have hlt : ∀ n, f n + 1 ≤ f (n + 1) := fun n => Nat.lt_of_le_of_ne (hm n) (hcon n)
  have hge : ∀ n, n ≤ f n := by
    intro n
    induction n with
    | zero => exact Nat.zero_le _
    | succ k ihk =>
      have := hlt k
      omega
  have h1 := hge (B + 1)
  have h2 := hb (B + 1)
  omega

/-- When a run leaves the table exactly as the previous run left it, the
plateau branch of `tests_complete` fires. -/
theorem tests_complete_plateau (rs : List Record) (d : Data) (h : d.records = rs) :
    tests_complete rs.length (checksumOf rs) d = 1 := by
  rw [tests_complete, h]
  simp

/-- `wf` holds for the freshly initialized table. -/
theorem wf_init : wf init_data := by
  refine ⟨rfl, by simp [init_data], ?_⟩
  intro r hr
  simp [init_data] at hr

theorem callers_upto_length : ∀ n, (callers_upto n).length = n := by
  intro n
  induction n with
  | zero => rfl
  | succ k ih => simp [callers_upto, ih]

theorem callers_upto_caller_lt : ∀ n r, r ∈ callers_upto n → r.caller < n := by
  intro n
  induction n with
  | zero => intro r hr; simp [callers_upto] at hr
  | succ k ih =>
    intro r hr
    rcases List.mem_append.mp hr with hl | hrr
    · exact Nat.lt_succ_of_lt (ih r hl)
    · have hr3 : r = ⟨k, 3⟩ := by simpa using hrr
      rw [hr3]
      exact Nat.lt_succ_self k

/-! Claim theorems. -/

/-- Claim C1: for every intercepted allocation call (malloc, calloc, realloc,
strdup, strndup), if the call site's record has `has_failed` clear, the
wrapper sets `has_failed` and returns the null failure sentinel without
invoking the underlying real allocator (`AllocResult.failed`); otherwise it
sets `has_succeeded` and returns the real allocator's result unmodified
(`AllocResult.delegated`). -/
theorem c1_intercept_policy
    (rm : Nat → Nat) (rc : Nat → Nat → Nat) (rr : Nat → Nat → Nat)
    (rsd : Nat → Nat) (rsn : Nat → Nat → Nat)
    (d : Data) (c sz nm p s n : Nat)
    (hs : (lookup_caller d c).isSome) :
    (site_failed d c = false →
      ∃ d1, site_failed d1 c = true ∧
        malloc rm sz d c = .failed d1 ∧
        calloc rc nm sz d c = .failed d1 ∧
        realloc rr p sz d c = .failed d1 ∧
        strdup rsd s d c = .failed d1 ∧
        strndup rsn s n d c = .failed d1) ∧
    (site_failed d c = true →
      ∃ d1, site_succeeded d1 c = true ∧
        malloc rm sz d c = .delegated d1 (rm sz) ∧
        calloc rc nm sz d c = .delegated d1 (rc nm sz) ∧
        realloc rr p sz d c = .delegated d1 (rr p sz) ∧
        strdup rsd s d c = .delegated d1 (rsd s) ∧
        strndup rsn s n d c = .delegated d1 (rsn s n)) := by
  constructor
  · intro hsf
    obtain ⟨d1, hstep⟩ := step_of_unfailed_site hs hsf
    refine ⟨d1, step_sets_failed hstep, ?_, ?_, ?_, ?_, ?_⟩
    · rw [malloc_as_step, hstep]
    · rw [calloc_as_step, hstep]
    · rw [realloc_as_step, hstep]
    · rw [strdup_as_step, hstep]
    · rw [strndup_as_step, hstep]
  · intro hsf
    obtain ⟨d1, hstep⟩ := step_of_failed_site hsf
    refine ⟨d1, step_sets_succeeded hstep, ?_, ?_, ?_, ?_, ?_⟩
    · rw [malloc_as_step, hstep]
    · rw [calloc_as_step, hstep]
    · rw [realloc_as_step, hstep]
    · rw [strdup_as_step, hstep]
    · rw [strndup_as_step, hstep]

/-- Witness for C1 at a concrete fresh site of the initial table. -/
theorem c1_intercept_policy_witness :
    (lookup_caller init_data 7).isSome = true ∧
    ((site_failed init_data 7 = false →
      ∃ d1, site_failed d1 7 = true ∧
        malloc (fun _ => 42) 8 init_data 7 = .failed d1 ∧
        calloc (fun _ _ => 43) 2 8 init_data 7 = .failed d1 ∧
        realloc (fun _ _ => 44) 9 8 init_data 7 = .failed d1 ∧
        strdup (fun _ => 45) 11 init_data 7 = .failed d1 ∧
        strndup (fun _ _ => 46) 11 3 init_data 7 = .failed d1) ∧
    (site_failed init_data 7 = true →
      ∃ d1, site_succeeded d1 7 = true ∧
        malloc (fun _ => 42) 8 init_data 7 = .delegated d1 42 ∧
        calloc (fun _ _ => 43) 2 8 init_data 7 = .delegated d1 43 ∧
        realloc (fun _ _ => 44) 9 8 init_data 7 = .delegated d1 44 ∧
        strdup (fun _ => 45) 11 init_data 7 = .delegated d1 45 ∧
        strndup (fun _ _ => 46) 11 3 init_data 7 = .delegated d1 46)) :=
  ⟨by decide, c1_intercept_policy (fun _ => 42) (fun _ _ => 43) (fun _ _ => 44)
    (fun _ => 45) (fun _ _ => 46) init_data 7 8 2 9 11 3 (by decide)⟩

/-- Claim C2 (refuted, code bug): the claim says `tests_complete` declares
convergence whenever every record has both flags set.  In the source,
`done &= (status & tested_success)` bitwise-ANDs a `{0,1}`-valued `done` with
the `{0,2}`-valued success bit, which is always `0`; so a fully covered
one-record table is NOT reported converged when the previous digest differs. -/
theorem c2_full_coverage_undetected :
    spec_full_coverage ⟨1024, [⟨5, 3⟩]⟩ = true ∧
    tests_complete 0 0 ⟨1024, [⟨5, 3⟩]⟩ = 0 := by decide

/-- Claim C3: the plateau rule — whenever the record count and the rolling
status checksum computed after the current run equal those of the previous
run, `tests_complete` declares convergence (returns nonzero), regardless of
coverage. -/
theorem c3_plateau_convergence (last_count last_sum : Nat) (d : Data)
    (h1 : last_count = d.records.length) (h2 : last_sum = checksumOf d.records) :
    tests_complete last_count last_sum d = 1 := by
  rw [tests_complete]
  simp [h1, h2]

/-- Witness for C3 on a one-record, not fully covered table. -/
theorem c3_plateau_convergence_witness :
    (1 : Nat) = (⟨1024, [⟨5, 1⟩]⟩ : Data).records.length ∧
    (1 : Nat) = checksumOf (⟨1024, [⟨5, 1⟩]⟩ : Data).records ∧
    tests_complete 1 1 ⟨1024, [⟨5, 1⟩]⟩ = 1 :=
  ⟨by decide, by decide, c3_plateau_convergence 1 1 ⟨1024, [⟨5, 1⟩]⟩ (by decide) (by decide)⟩

/-- Claim C4: over any campaign trace processed from the initial table
without a fatal capacity exit, every call site appearing in the trace is
forced to fail exactly once (its first invocation); all later invocations at
that site succeed. -/
theorem c4_exactly_once_failure (t : List Nat) (x : Nat)
    (hrun : (run_trace init_data t).isSome) (hx : x ∈ t) :
    failures init_data t x = 1 := by
  rw [failures_formula t init_data x hrun]
  have hsf : site_failed init_data x = false := rfl
  simp [hsf, hx]

/-- Witness for C4: site 7 is hit three times across the trace yet fails once. -/
theorem c4_exactly_once_failure_witness :
    (run_trace init_data [7, 7, 3]).isSome = true ∧ (7 : Nat) ∈ [7, 7, 3] ∧
    failures init_data [7, 7, 3] 7 = 1 :=
  ⟨by decide, by decide, c4_exactly_once_failure [7, 7, 3] 7 (by decide) (by decide)⟩

/-- Claim C5: across any sequence of intercepted calls, the record list is
append-only with callers preserved in place (`RecsLe`), status flags only
gain bits (never lose them), and caller uniqueness is preserved. -/
theorem c5_table_invariants (t : List Nat) (d d' : Data)
    (hnd : nodup_callers d.records = true) (hrun : run_trace d t = some d') :
    evolves d d' ∧ nodup_callers d'.records = true := by
  obtain ⟨he, hn, _⟩ := run_trace_inv t d d' hrun
  exact ⟨he, hn hnd⟩

/-- Witness for C5 on a concrete two-call trace. -/
theorem c5_table_invariants_witness :
    nodup_callers init_data.records = true ∧
    run_trace init_data [4, 4] = some ⟨1024, [⟨4, 3⟩]⟩ ∧
    (evolves init_data ⟨1024, [⟨4, 3⟩]⟩ ∧
      nodup_callers (⟨1024, [⟨4, 3⟩]⟩ : Data).records = true) :=
  ⟨by decide, by decide,
    c5_table_invariants [4, 4] init_data ⟨1024, [⟨4, 3⟩]⟩ (by decide) (by decide)⟩

/-- Claim C6 (refuted, code bug): the claim says a lookup for a new call site
at capacity terminates the whole campaign with a fatal error and nonzero exit
and never silently truncates.  The `exit(EXIT_FAILURE)` in `lookup_caller`
does fire — at the full 1024-record table a call from a 1025th caller takes
the fatal path (`none`), so the run making that call dies with exit status 1 —
but allocations of the target happen in the forked child, so only that run
terminates; the parent's `waitpid` classifies it as a normal `WIFEXITED` run
outcome, logs it and keeps looping.  No record is appended and no failure is
injected for the new site, so the table never changes again, and the very
next `tests_complete` call (statics equal to the table's own digest) returns
`1`: the campaign converges via the plateau rule and `run_tests` exits
`EXIT_SUCCESS` with the report truncated to the 1024 tracked sites. -/
theorem c6_capacity_child_exit_then_plateau :
    full_table.records.length = full_table.max_records ∧
    find_rec full_table.records 5000 = none ∧
    lookup_caller full_table 5000 = none ∧
    run_trace full_table [5000] = none ∧
    failures full_table [5000] 5000 = 0 ∧
    tests_complete full_table.records.length (checksumOf full_table.records) full_table = 1 := by
  have hrecs : full_table.records = callers_upto 1024 := rfl
  have hlen : full_table.records.length = full_table.max_records := by
    rw [hrecs, callers_upto_length]
    rfl
  have hfresh : find_rec full_table.records 5000 = none := by
    apply find_rec_eq_none_of_forall
    intro r hr
    rw [hrecs] at hr
    have hlt : r.caller < 1024 := callers_upto_caller_lt 1024 r hr
    omega
  have hcap := table_step_cap full_table 5000 hfresh (by omega)
  refine ⟨hlen, hfresh, hcap.1, ?_, ?_, tests_complete_plateau _ _ rfl⟩
  · rw [run_trace, hcap.2]
  · rw [failures, hcap.2]

/-- Claim C7: for every campaign (any sequence of run traces, each processed
without a fatal exit), some run's `tests_complete` check fires, so the driver
loop terminates: the table evolution is monotone and bounded, hence two
consecutive runs eventually leave it unchanged and the plateau rule declares
convergence. -/
theorem c7_campaign_terminates (S : ℕ → Data) (T : ℕ → List Nat)
    (h0 : S 0 = init_data)
    (hstep : ∀ n, run_trace (S n) (T n) = some (S (n + 1))) :
    ∃ n, tests_complete (S n).records.length (checksumOf (S n).records) (S (n + 1)) = 1 := by
  have hev : ∀ n, RecsLe (S n).records (S (n + 1)).records :=
    fun n => (run_trace_inv (T n) (S n) (S (n + 1)) (hstep n)).1.2
  have hwf : ∀ n, wf (S n) := by
    intro n
    induction n with
    | zero => rw [h0]; exact wf_init
    | succ k ihk => exact (run_trace_inv (T k) (S k) (S (k + 1)) (hstep k)).2.2 ihk
  obtain ⟨n, hn⟩ := exists_consec_eq (fun m => measure_recs (S m).records) 7168
    (fun m => recsle_measure_le (hev m)) (fun m => measure_le_of_wf (hwf m))
  have heq : (S n).records = (S (n + 1)).records := recsle_measure_eq (hev n) hn
  exact ⟨n, tests_complete_plateau (S n).records (S (n + 1)) heq.symm⟩

/-- Witness for C7 on the trivial campaign whose target makes no allocations. -/
theorem c7_campaign_terminates_witness :
    init_data = init_data ∧
    (∀ _n : ℕ, run_trace init_data [] = some init_data) ∧
    ∃ _n : ℕ, tests_complete init_data.records.length (checksumOf init_data.records)
      init_data = 1 :=
  ⟨rfl, fun _ => rfl,
    c7_campaign_terminates (fun _ => init_data) (fun _ => []) rfl (fun _ => rfl)⟩

/-- Claim C8 (refuted, code bug): in the one-site exit-on-null scenario the
table states after run 1 and run 2 are as the claim says, but `tests_complete`
does not detect full coverage after run 2 (the `done &= (status & 0x2)` slip),
so a third run is spawned and convergence only happens after run 3 via the
plateau rule. -/
theorem c8_scenario_requires_third_run :
    run_trace init_data [5] = some ⟨1024, [⟨5, 1⟩]⟩ ∧
    site_failed ⟨1024, [⟨5, 1⟩]⟩ 5 = true ∧ site_succeeded ⟨1024, [⟨5, 1⟩]⟩ 5 = false ∧
    tests_complete 0 0 ⟨1024, [⟨5, 1⟩]⟩ = 0 ∧
    run_trace ⟨1024, [⟨5, 1⟩]⟩ [5] = some ⟨1024, [⟨5, 3⟩]⟩ ∧
    spec_full_coverage ⟨1024, [⟨5, 3⟩]⟩ = true ∧
    tests_complete 1 (checksumOf [⟨5, 1⟩]) ⟨1024, [⟨5, 3⟩]⟩ = 0 ∧
    run_trace ⟨1024, [⟨5, 3⟩]⟩ [5] = some ⟨1024, [⟨5, 3⟩]⟩ ∧
    tests_complete 1 (checksumOf [⟨5, 3⟩]) ⟨1024, [⟨5, 3⟩]⟩ = 1 := by decide

/-- Counterexample to C9 as stated: `init` checks only `real_malloc`,
`real_calloc` and `real_realloc`; with `strdup` unresolved (0 = NULL) and the
rest fine, setup proceeds instead of aborting. -/
theorem c9_strdup_unresolved_proceeds : init 1 1 1 0 1 1 = InitResult.proceed := by decide

/-- Claim C9 (amended): `init` exits with failure before running the target
exactly when `malloc`, `calloc` or `realloc` cannot be resolved, or the table
mapping check (`data == NULL`) trips; unresolved `strdup`/`strndup` are not
checked. -/
theorem c9_setup_abort_amended (rm rc rr rsd rsn mret : Nat) :
    init rm rc rr rsd rsn mret = InitResult.fatal_exit ↔
      rm = 0 ∨ rc = 0 ∨ rr = 0 ∨ mret = 0 := by
  unfold init
  split_ifs with h1 h2
  · constructor
    · intro _; tauto
    · intro _; rfl
  · constructor
    · intro _; tauto
    · intro _; rfl
  · constructor
    · intro hcon; exact absurd hcon (by simp)
    · intro hcon; exact absurd hcon (by tauto)

/-- Claim C10: on a call whose site already has `has_failed` set, the
`tested_success` bit is stored unconditionally before the real allocator is
consulted: the resulting table is the same for every real allocator (here two
different `real_malloc`s, including one returning NULL), the success flag is
set, and the report's `Tested Success` column shows it — it does not certify
that an allocation actually succeeded. -/
theorem c10_success_flag_unconditional
    (rm1 rm2 : Nat → Nat) (rc : Nat → Nat → Nat) (rr : Nat → Nat → Nat)
    (rsd : Nat → Nat) (rsn : Nat → Nat → Nat)
    (d : Data) (c sz1 sz2 nm p s n : Nat)
    (h : site_failed d c = true) :
    ∃ d1, malloc rm1 sz1 d c = .delegated d1 (rm1 sz1) ∧
      malloc rm2 sz2 d c = .delegated d1 (rm2 sz2) ∧
      calloc rc nm sz1 d c = .delegated d1 (rc nm sz1) ∧
      realloc rr p sz1 d c = .delegated d1 (rr p sz1) ∧
      strdup rsd s d c = .delegated d1 (rsd s) ∧
      strndup rsn s n d c = .delegated d1 (rsn s n) ∧
      site_succeeded d1 c = true ∧ site_failed d1 c = true ∧
      (c, true, true) ∈ report d1 := by
  obtain ⟨d1, hstep⟩ := step_of_failed_site h
  have hsucc := step_sets_succeeded hstep
  have hfail := step_sets_failed hstep
  refine ⟨d1, ?_, ?_, ?_, ?_, ?_, ?_, hsucc, hfail, ?_⟩
  · rw [malloc_as_step, hstep]
  · rw [malloc_as_step, hstep]
  · rw [calloc_as_step, hstep]
  · rw [realloc_as_step, hstep]
  · rw [strdup_as_step, hstep]
  · rw [strndup_as_step, hstep]
  · cases hfr : find_rec d1.records c with
    | none =>
      exfalso
      simp only [site_succeeded] at hsucc
      rw [hfr] at hsucc
      exact absurd hsucc (by simp)
    | some r =>
      obtain ⟨hmem, hcal⟩ := find_rec_some_mem hfr
      have hs2 : ((r.status &&& tested_success) != 0) = true := by
        simp only [site_succeeded] at hsucc
        rw [hfr] at hsucc
        exact hsucc
      have hf2 : ((r.status &&& tested_failure) != 0) = true := by
        simp only [site_failed] at hfail
        rw [hfr] at hfail
        exact hfail
      have hin : (r.caller, (r.status &&& tested_success) != 0,
          (r.status &&& tested_failure) != 0) ∈ report d1 :=
        List.mem_map_of_mem _ hmem
      rw [hcal, hs2, hf2] at hin
      exact hin

/-- Witness for C10: real allocator returning 7 and real allocator returning
NULL (0) produce the same table, with the success flag recorded either way. -/
theorem c10_success_flag_unconditional_witness :
    site_failed ⟨1024, [⟨5, 1⟩]⟩ 5 = true ∧
    ∃ d1, malloc (fun _ => 7) 8 ⟨1024, [⟨5, 1⟩]⟩ 5 = .delegated d1 7 ∧
      malloc (fun _ => 0) 9 ⟨1024, [⟨5, 1⟩]⟩ 5 = .delegated d1 0 ∧
      calloc (fun _ _ => 10) 2 8 ⟨1024, [⟨5, 1⟩]⟩ 5 = .delegated d1 10 ∧
      realloc (fun _ _ => 11) 6 8 ⟨1024, [⟨5, 1⟩]⟩ 5 = .delegated d1 11 ∧
      strdup (fun _ => 12) 13 ⟨1024, [⟨5, 1⟩]⟩ 5 = .delegated d1 12 ∧
      strndup (fun _ _ => 14) 13 4 ⟨1024, [⟨5, 1⟩]⟩ 5 = .delegated d1 14 ∧
      site_succeeded d1 5 = true ∧ site_failed d1 5 = true ∧
      (5, true, true) ∈ report d1 :=
  ⟨by decide, c10_success_flag_unconditional (fun _ => 7) (fun _ => 0) (fun _ _ => 10)
    (fun _ _ => 11) (fun _ => 12) (fun _ _ => 14) ⟨1024, [⟨5, 1⟩]⟩ 5 8 9 2 6 13 4 (by decide)⟩

end FaultyMalloc
